import Mathlib

/-!
Verification development for the dismaland-watcher repository.

The polling core lives in `Poller.prototype.poll` (two observed variants,
differing only in the cheerio selector).  Each cycle maps over a fixed
two-element page list with `async.map`; per page, `superagent` fetches the
calendar endpoint, `cheerio` counts elements matching a descendant selector,
and the page outcome is the boolean `count != 0`.  A fetch error makes the
page task call back with that error, which makes `async.map` fire its final
callback immediately (fail-fast) with the results gathered so far; otherwise
the final callback receives the array of booleans.  The final callback
aggregates with `_.reduce(results, (acc, r) => acc || r, false)` and delivers
`(err, { status })` to the consumer.

The consumer (`app.js`) keeps `currentResult` (initially the empty object),
compares each delivered result with lodash `_.eq`, and on inequality sends an
email and a pushbullet note and stores the new result.
-/

/-- An HTML element: tag name and class list (the only attributes the two
observed selectors inspect). -/
structure ElemData where
  tag : String
  classes : List String
deriving Repr, DecidableEq

/-- A simple CSS selector component, as used by the two observed cheerio
queries: a class test (`.foo`) or a tag-name test (`a`). -/
inductive Simple where
  | cls (name : String)
  | tagSel (name : String)
deriving Repr, DecidableEq

mutual
/-- HTML node, mirroring the DOM cheerio parses. -/
inductive HNode where
  | text (s : String) : HNode
  | elem (d : ElemData) (children : HForest) : HNode
/-- Forest of sibling HTML nodes. -/
inductive HForest where
  | nil : HForest
  | cons (n : HNode) (rest : HForest) : HForest
end

/-- Does one simple selector component match an element? -/
def nodeMatches : Simple → ElemData → Bool
  | .cls c, d => d.classes.contains c
  | .tagSel t, d => d.tag == t

/-- A descendant-selector chain is fully consumed at this element when one
component remains and it matches. -/
def chainHit : List Simple → ElemData → Bool
  | [s], d => nodeMatches s d
  | _, _ => false

/-- Advance a descendant-selector chain past this element: if the head
component matches and more components remain, descendants continue with the
tail. -/
def chainStep : List Simple → ElemData → Option (List Simple)
  | s :: r :: rest, d => if nodeMatches s d then some (r :: rest) else none
  | _, _ => none

mutual
/-- Count the elements matched by a descendant-selector query, as cheerio's
`$(sel).length` does: each element counts at most once.  `active` carries the
chain suffixes still matchable at the current depth (the full chain is always
live, since matching may start at any ancestor). -/
def countNode (active : List (List Simple)) : HNode → Nat
  | .text _ => 0
  | .elem d cs =>
      (if active.any (fun c => chainHit c d) then 1 else 0) +
      countForest (active ++ active.filterMap (fun c => chainStep c d)) cs
/-- Forest version of `countNode`. -/
def countForest (active : List (List Simple)) : HForest → Nat
  | .nil => 0
  | .cons n rest => countNode active n + countForest active rest
end

mutual
/-- Declarative reading of a descendant-selector chain, written from the
spec's markup contract: the subtree contains an element matching the first
component which (at any depth) contains an element matching the next, and so
on. -/
def subtreeHas (sel : List Simple) : HNode → Bool
  | .text _ => false
  | .elem d cs =>
      match sel with
      | [] => false
      | [s] => nodeMatches s d || forestHas [s] cs
      | s :: r :: rest =>
          (nodeMatches s d && forestHas (r :: rest) cs) || forestHas (s :: r :: rest) cs
/-- Forest version of `subtreeHas`. -/
def forestHas (sel : List Simple) : HForest → Bool
  | .nil => false
  | .cons n rest => subtreeHas sel n || forestHas sel rest
end

/-- Selector of the first observed poll variant:
`.day-has-shows .times .show-lowest-price`. -/
def selectorV1 : List Simple :=
  [.cls "day-has-shows", .cls "times", .cls "show-lowest-price"]

/-- Selector of the second observed poll variant: `.day-has-shows .times a`. -/
def selectorV2 : List Simple :=
  [.cls "day-has-shows", .cls "times", .tagSel "a"]

/-- Outcome of one `superagent.get` of the calendar endpoint: either the
parsed document or the transport error (errors abstracted as numbers). -/
inductive FetchResult where
  | ok (doc : HForest)
  | failed (e : Nat)

/-- The second waterfall step, `processPage`: a fetch error is passed on via
`cb(err)`; otherwise the outcome is `false` when `$(sel).length == 0` in the
parsed markup and `true` otherwise. -/
def processPage (sel : List Simple) : FetchResult → Except Nat Bool
  | .failed e => .error e
  | .ok doc => if countForest [sel] doc == 0 then .ok false else .ok true

/-- Is a page outcome a success? -/
def isOkB : Except Nat Bool → Bool
  | .ok _ => true
  | .error _ => false

/-- Delivery step of `async.map`: page tasks complete in the order given by
`order` (completion order of the concurrent fetches); each success writes its
boolean into the results array at the page's index; the first error stops the
collection and fires the final callback with that error and the results
gathered so far (the erroring slot holds `undefined`, modelled `none`, as do
slots not yet written).  Indices outside the page list do not occur in a real
cycle and are skipped. -/
def runPages (sel : List Simple) (fetches : List FetchResult) :
    List Nat → List (Option Bool) → Option Nat × List (Option Bool)
  | [], acc => (none, acc)
  | i :: rest, acc =>
      match fetches[i]? with
      | none => runPages sel fetches rest acc
      | some f =>
          match processPage sel f with
          | .ok b => runPages sel fetches rest (acc.set i (some b))
          | .error e => (some e, acc.set i none)

/-- The `_.reduce(results, (acc, r) => acc || r, false)` aggregation; a slot
holding `undefined` (errored or never written) is falsy. -/
def orReduce (results : List (Option Bool)) : Bool :=
  results.foldl (fun acc r => acc || (r == some true)) false

/-- The status string as the final callback computes it into `result.status`. -/
def aggregateStatus (results : List (Option Bool)) : String :=
  if orReduce results then "available" else "unavailable"

/-- What one invocation of the poll callback carries: the error argument and
the result object (a JS object modelled as an association list of fields). -/
structure PollDelivery where
  error : Option Nat
  result : List (String × String)
deriving Repr, DecidableEq

/-- One polling cycle of `Poller.prototype.poll`: fan out over the pages,
join via `runPages`, build `result = { status: ... }` and deliver it together
with the error argument in a single callback invocation. -/
def pollCore (sel : List Simple) (fetches : List FetchResult) (order : List Nat) :
    PollDelivery :=
  let r := runPages sel fetches order (List.replicate fetches.length none)
  ⟨r.1, [("status", aggregateStatus r.2)]⟩

/-- The fixed page list of `Poller.prototype.poll` (both entries are fetched
from the same calendar endpoint; they are two independent requests). -/
def pages : List String :=
  ["http://www.seetickets.com/tour/dismaland/calendar/1",
   "http://www.seetickets.com/tour/dismaland/calendar/2"]

/-- A polling cycle of the deployed watcher: one fetch attempt per entry of
the fixed page list, outcomes given per attempt by `env`. -/
def pollDismaland (sel : List Simple) (env : Nat → FetchResult) (order : List Nat) :
    PollDelivery :=
  pollCore sel ((List.range pages.length).map env) order

/-- Field lookup on a JS object (first binding wins). -/
def lookupField : List (String × String) → String → Option String
  | [], _ => none
  | (k, v) :: rest, key => if k == key then some v else lookupField rest key

/-- Modelled from the spec: lodash `_.eq` as used in `app.js` (the lodash
sources are not part of this repository; in the lodash 3 line `_.eq` is an
alias of `_.isEqual`).  Per the spec it is a structural, field-by-field
comparison: two objects are equal when they have the same number of fields
and every field of the first is present in the second with an equal value. -/
def lodashEq (a b : List (String × String)) : Bool :=
  a.length == b.length && a.all (fun kv => lookupField b kv.1 == some kv.2)

/-- The initial `currentResult = {}` of `app.js`. -/
def emptyObj : List (String × String) := []

/-- Observable effect of one run of the `startPolling` callback in `app.js`:
whether the email and the pushbullet note were sent, and the stored
`currentResult` afterwards. -/
structure NotifyOutcome where
  emailSent : Bool
  pushSent : Bool
  stored : List (String × String)
deriving Repr, DecidableEq

/-- The change-detection step of `app.js`: if `_.eq(currentResult, result)`
fails, store the new result and send both notifications; otherwise do
nothing. -/
def onPollResult (current result : List (String × String)) : NotifyOutcome :=
  if lodashEq current result then ⟨false, false, current⟩
  else ⟨true, true, result⟩

/-- Markup with one day-has-shows entry whose times container holds a priced
time slot (matches variant 1's selector). -/
def docPriced : HForest :=
  .cons (.elem ⟨"div", ["day-has-shows"]⟩
    (.cons (.elem ⟨"div", ["times"]⟩
      (.cons (.elem ⟨"span", ["show-lowest-price"]⟩ .nil) .nil)) .nil)) .nil

/-- Markup with one day-has-shows entry whose times container holds only a
plain link (matches variant 2's selector but not variant 1's). -/
def docLinkOnly : HForest :=
  .cons (.elem ⟨"div", ["day-has-shows"]⟩
    (.cons (.elem ⟨"div", ["times"]⟩
      (.cons (.elem ⟨"a", []⟩ .nil) .nil)) .nil)) .nil

theorem orReduce_aux (l : List (Option Bool)) :
    ∀ b : Bool, l.foldl (fun acc r => acc || (r == some true)) b =
      (b || l.any (fun r => r == some true)) := by
  induction l with
  | nil => intro b; simp [List.foldl, List.any]
  | cons x xs ih =>
      intro b
      simp only [List.foldl, List.any_cons]
      rw [ih (b || (x == some true)), Bool.or_assoc]

theorem orReduce_eq_any (l : List (Option Bool)) :
    orReduce l = l.any (fun r => r == some true) := by
  simpa using orReduce_aux l false

theorem subtreeHas_nil (n : HNode) : subtreeHas [] n = false := by
  cases n <;> rfl

theorem forestHas_nil_sel : ∀ f : HForest, forestHas [] f = false
  | .nil => rfl
  | .cons n rest => by
      simp [forestHas, subtreeHas_nil n, forestHas_nil_sel rest]

mutual
theorem countNode_pos_iff : ∀ (n : HNode) (active : List (List Simple)),
    0 < countNode active n ↔ ∃ c ∈ active, subtreeHas c n = true
  | .text s, active => by simp [countNode, subtreeHas]
  | .elem d cs, active => by
      have hforest := countForest_pos_iff cs
        (active ++ active.filterMap (fun c => chainStep c d))
      constructor
      · intro hpos
        rw [countNode] at hpos
        by_cases hhit : active.any (fun c => chainHit c d) = true
        · obtain ⟨c, hc, hch⟩ := List.any_eq_true.mp hhit
          cases c with
          | nil => simp [chainHit] at hch
          | cons s ct =>
            cases ct with
            | nil =>
                have hm : nodeMatches s d = true := by simpa [chainHit] using hch
                exact ⟨[s], hc, by simp [subtreeHas, hm]⟩
            | cons r cr => simp [chainHit] at hch
        · rw [if_neg hhit, Nat.zero_add] at hpos
          obtain ⟨c', hc', hhas⟩ := hforest.mp hpos
          rcases List.mem_append.mp hc' with hin | hin
          · refine ⟨c', hin, ?_⟩
            cases c' with
            | nil => simp [forestHas_nil_sel] at hhas
            | cons s ct =>
              cases ct with
              | nil => simp [subtreeHas, hhas]
              | cons r cr => simp [subtreeHas, hhas]
          · obtain ⟨c, hc, hstep⟩ := List.mem_filterMap.mp hin
            cases c with
            | nil => simp [chainStep] at hstep
            | cons s ct =>
              cases ct with
              | nil => simp [chainStep] at hstep
              | cons r cr =>
                  rw [chainStep] at hstep
                  by_cases hm : nodeMatches s d = true
                  · rw [if_pos hm] at hstep
                    injection hstep with hstep
                    subst hstep
                    exact ⟨s :: r :: cr, hc, by simp [subtreeHas, hm, hhas]⟩
                  · rw [if_neg hm] at hstep
                    simp at hstep
      · rintro ⟨c, hc, hhas⟩
        rw [countNode]
        cases c with
        | nil => simp [subtreeHas] at hhas
        | cons s ct =>
          cases ct with
          | nil =>
            rcases (show nodeMatches s d = true ∨ forestHas [s] cs = true by
                simpa [subtreeHas] using hhas) with hm | hf
            · have hany : active.any (fun c => chainHit c d) = true :=
                List.any_eq_true.mpr ⟨[s], hc, by simp [chainHit, hm]⟩
              rw [if_pos hany]
              exact Nat.lt_of_lt_of_le Nat.zero_lt_one (Nat.le_add_right 1 _)
            · have hpos := hforest.mpr ⟨[s], List.mem_append_left _ hc, hf⟩
              exact Nat.lt_of_lt_of_le hpos (Nat.le_add_left _ _)
          | cons r cr =>
            rcases (show (nodeMatches s d = true ∧ forestHas (r :: cr) cs = true) ∨
                forestHas (s :: r :: cr) cs = true by
                simpa [subtreeHas, Bool.or_eq_true, Bool.and_eq_true] using hhas) with
              ⟨hm, hf⟩ | hf
            · have hmem : (r :: cr) ∈ active ++ active.filterMap (fun c => chainStep c d) :=
                List.mem_append_right _
                  (List.mem_filterMap.mpr ⟨s :: r :: cr, hc, by simp [chainStep, hm]⟩)
              exact Nat.lt_of_lt_of_le (hforest.mpr ⟨_, hmem, hf⟩) (Nat.le_add_left _ _)
            · exact Nat.lt_of_lt_of_le
                (hforest.mpr ⟨_, List.mem_append_left _ hc, hf⟩) (Nat.le_add_left _ _)

theorem countForest_pos_iff : ∀ (f : HForest) (active : List (List Simple)),
    0 < countForest active f ↔ ∃ c ∈ active, forestHas c f = true
  | .nil, active => by simp [countForest, forestHas]
  | .cons n rest, active => by
      have h1 := countNode_pos_iff n active
      have h2 := countForest_pos_iff rest active
      simp only [countForest]
      constructor
      · intro hpos
        rcases (show 0 < countNode active n ∨ 0 < countForest active rest by omega) with h | h
        · obtain ⟨c, hc, hh⟩ := h1.mp h
          exact ⟨c, hc, by simp [forestHas, hh]⟩
        · obtain ⟨c, hc, hh⟩ := h2.mp h
          exact ⟨c, hc, by simp [forestHas, hh]⟩
      · rintro ⟨c, hc, hh⟩
        rcases (show subtreeHas c n = true ∨ forestHas c rest = true by
            simpa [forestHas] using hh) with h | h
        · have := h1.mpr ⟨c, hc, h⟩
          omega
        · have := h2.mpr ⟨c, hc, h⟩
          omega
end

theorem countForest_pos_forestHas (sel : List Simple) (f : HForest) :
    0 < countForest [sel] f ↔ forestHas sel f = true := by
  simpa using countForest_pos_iff f [sel]

theorem processPage_ok_true_iff (sel : List Simple) (doc : HForest) :
    processPage sel (.ok doc) = .ok true ↔ forestHas sel doc = true := by
  rw [processPage, ← countForest_pos_forestHas]
  by_cases h : countForest [sel] doc = 0
  · simp [h]
  · simp [h, Nat.pos_of_ne_zero h]

/-- The boolean a page's slot holds in the results array once its task has
completed successfully (`false` as a placeholder for slots that cannot
succeed). -/
def outValAt (sel : List Simple) (fetches : List FetchResult) (j : Nat) : Bool :=
  match fetches[j]? with
  | some f =>
      match processPage sel f with
      | .ok b => b
      | .error _ => false
  | none => false

theorem runPages_noFail (sel : List Simple) (fetches : List FetchResult) :
    ∀ (order : List Nat) (acc : List (Option Bool)),
    acc.length = fetches.length →
    (∀ i ∈ order, ∀ f, fetches[i]? = some f → isOkB (processPage sel f) = true) →
    (runPages sel fetches order acc).1 = none ∧
    ∀ j : Nat, (runPages sel fetches order acc).2[j]? =
      if j ∈ order ∧ j < fetches.length then some (some (outValAt sel fetches j))
      else acc[j]? := by
  intro order
  induction order with
  | nil =>
      intro acc hlen hok
      refine ⟨rfl, fun j => ?_⟩
      simp [runPages]
  | cons i rest ih =>
      intro acc hlen hok
      cases hfi : fetches[i]? with
      | none =>
          have hibig : fetches.length ≤ i := by
            by_contra hlt
            rw [List.getElem?_eq_getElem (Nat.lt_of_not_le hlt)] at hfi
            exact Option.noConfusion hfi
          obtain ⟨h1, h2⟩ := ih acc hlen (fun i' hi' => hok i' (List.mem_cons_of_mem _ hi'))
          simp only [runPages, hfi]
          refine ⟨h1, fun j => ?_⟩
          rw [h2 j]
          by_cases hjr : j ∈ rest ∧ j < fetches.length
          · rw [if_pos hjr, if_pos ⟨List.mem_cons_of_mem _ hjr.1, hjr.2⟩]
          · rw [if_neg hjr, if_neg ?_]
            rintro ⟨hjm, hjlt⟩
            rcases List.mem_cons.mp hjm with hji | hjm'
            · subst hji; omega
            · exact hjr ⟨hjm', hjlt⟩
      | some f =>
          have hilt : i < fetches.length := by
            rcases List.getElem?_eq_some.mp hfi with ⟨h, _⟩
            exact h
          have hokf := hok i (List.mem_cons_self i rest) f hfi
          cases hpf : processPage sel f with
          | error e => rw [hpf] at hokf; simp [isOkB] at hokf
          | ok b =>
              simp only [runPages, hfi, hpf]
              have hlen' : (acc.set i (some b)).length = fetches.length := by
                rw [List.length_set]; exact hlen
              obtain ⟨h1, h2⟩ := ih (acc.set i (some b)) hlen'
                (fun i' hi' => hok i' (List.mem_cons_of_mem _ hi'))
              refine ⟨h1, fun j => ?_⟩
              rw [h2 j]
              by_cases hjr : j ∈ rest ∧ j < fetches.length
              · rw [if_pos hjr, if_pos ⟨List.mem_cons_of_mem _ hjr.1, hjr.2⟩]
              · rw [if_neg hjr]
                by_cases hji : j = i
                · subst hji
                  rw [if_pos ⟨List.mem_cons_self _ _, hilt⟩]
                  have : (acc.set j (some b))[j]? = some (some b) := by
                    rw [List.getElem?_set]
                    simp [hlen ▸ hilt]
                  rw [this]
                  have : outValAt sel fetches j = b := by
                    simp only [outValAt, hfi, hpf]
                  rw [this]
                · rw [List.getElem?_set_ne (fun h => hji h.symm), if_neg ?_]
                  rintro ⟨hjm, hjlt⟩
                  rcases List.mem_cons.mp hjm with h | h
                  · exact hji h
                  · exact hjr ⟨h, hjlt⟩

theorem runPages_isSome_iff (sel : List Simple) (fetches : List FetchResult) :
    ∀ (order : List Nat) (acc : List (Option Bool)),
    ((runPages sel fetches order acc).1.isSome = true ↔
      ∃ i ∈ order, ∃ f, fetches[i]? = some f ∧ isOkB (processPage sel f) = false) := by
  intro order
  induction order with
  | nil =>
      intro acc
      simp [runPages]
  | cons i rest ih =>
      intro acc
      cases hfi : fetches[i]? with
      | none =>
          simp only [runPages, hfi]
          rw [ih acc]
          constructor
          · rintro ⟨i', hi', f, hf, hb⟩
            exact ⟨i', List.mem_cons_of_mem _ hi', f, hf, hb⟩
          · rintro ⟨i', hi', f, hf, hb⟩
            rcases List.mem_cons.mp hi' with h | h
            · subst h; rw [hfi] at hf; exact Option.noConfusion hf
            · exact ⟨i', h, f, hf, hb⟩
      | some f =>
          cases hpf : processPage sel f with
          | error e =>
              simp only [runPages, hfi, hpf, Option.isSome_some, true_iff]
              exact ⟨i, List.mem_cons_self _ _, f, hfi, by rw [hpf]; rfl⟩
          | ok b =>
              simp only [runPages, hfi, hpf]
              rw [ih (acc.set i (some b))]
              constructor
              · rintro ⟨i', hi', f', hf', hb⟩
                exact ⟨i', List.mem_cons_of_mem _ hi', f', hf', hb⟩
              · rintro ⟨i', hi', f', hf', hb⟩
                rcases List.mem_cons.mp hi' with h | h
                · subst h
                  rw [hfi] at hf'
                  injection hf' with hf'
                  subst hf'
                  rw [hpf] at hb
                  simp [isOkB] at hb
                · exact ⟨i', h, f', hf', hb⟩

theorem pollCore_result_eq (sel : List Simple) (fetches : List FetchResult) (order : List Nat) :
    (pollCore sel fetches order).result =
      [("status", aggregateStatus
        (runPages sel fetches order (List.replicate fetches.length none)).2)] := rfl

theorem pollCore_error_eq (sel : List Simple) (fetches : List FetchResult) (order : List Nat) :
    (pollCore sel fetches order).error =
      (runPages sel fetches order (List.replicate fetches.length none)).1 := rfl

theorem aggregateStatus_cases (l : List (Option Bool)) :
    aggregateStatus l = "available" ∨ aggregateStatus l = "unavailable" := by
  rw [aggregateStatus]
  by_cases h : orReduce l = true
  · rw [if_pos h]; left; rfl
  · rw [if_neg h]; right; rfl

theorem lookupField_status (s : String) :
    lookupField [("status", s)] "status" = some s := rfl

theorem lookupField_details (s : String) :
    lookupField [("status", s)] "details" = none := rfl

theorem lodashEq_empty_cons (x : String × String) (xs : List (String × String)) :
    lodashEq emptyObj (x :: xs) = false := rfl

theorem lodashEq_result_self (s : String) :
    lodashEq [("status", s)] [("status", s)] = true := by
  simp [lodashEq, lookupField_status]

theorem onPollResult_of_changed (cur r : List (String × String))
    (h : lodashEq cur r = false) : onPollResult cur r = ⟨true, true, r⟩ := by
  simp [onPollResult, h]

theorem onPollResult_of_same (cur r : List (String × String))
    (h : lodashEq cur r = true) : onPollResult cur r = ⟨false, false, cur⟩ := by
  simp [onPollResult, h]

theorem aggregateStatus_eq_available_iff (l : List (Option Bool)) :
    aggregateStatus l = "available" ↔ (some true) ∈ l := by
  rw [aggregateStatus]
  by_cases h : orReduce l = true
  · rw [if_pos h]
    simp only [true_iff]
    rw [orReduce_eq_any, List.any_eq_true] at h
    obtain ⟨x, hx, hb⟩ := h
    rcases x with _ | b
    · simp at hb
    · have : b = true := by simpa using hb
      subst this; exact hx
  · rw [if_neg h]
    constructor
    · intro hc; exact absurd hc (by decide)
    · intro hmem
      exfalso
      apply h
      rw [orReduce_eq_any, List.any_eq_true]
      exact ⟨some true, hmem, by simp⟩

/-- Claim C10: on every invocation of the poll callback, including those with
a non-null error argument, the result argument is an object whose status
field is exactly one of "available" or "unavailable"; an error is never
delivered without an accompanying result object (the model delivers both
components in the one `PollDelivery`). -/
theorem c10_result_always_wellformed (sel : List Simple) (fetches : List FetchResult)
    (order : List Nat) :
    lookupField (pollCore sel fetches order).result "status" = some "available" ∨
    lookupField (pollCore sel fetches order).result "status" = some "unavailable" := by
  rw [pollCore_result_eq]
  rcases aggregateStatus_cases
      (runPages sel fetches order (List.replicate fetches.length none)).2 with h | h
  · left; rw [lookupField_status, h]
  · right; rw [lookupField_status, h]

/-- Claim C8 (counterexample): in a concrete cycle where both pages return
markup with no matching element, the delivered result object is exactly
`[("status", "unavailable")]`: it has no details field at all, contradicting
"details left empty (present but unused/empty)". -/
theorem c8_details_absent_cex :
    (pollCore selectorV1 [.ok HForest.nil, .ok HForest.nil] [0, 1]).result =
      [("status", "unavailable")] ∧
    lookupField (pollCore selectorV1 [.ok HForest.nil, .ok HForest.nil] [0, 1]).result
      "details" = none := by
  constructor
  · rfl
  · rfl

/-- Claim C8 (amended): every PollResult produced by a cycle is an object with
exactly one field, status, set to "available" or "unavailable" as computed by
the aggregation; no details field is present on it (reading details yields
undefined). -/
theorem c8_result_shape (sel : List Simple) (fetches : List FetchResult) (order : List Nat) :
    ∃ s, (pollCore sel fetches order).result = [("status", s)] ∧
      (s = "available" ∨ s = "unavailable") ∧
      lookupField (pollCore sel fetches order).result "details" = none := by
  refine ⟨aggregateStatus (runPages sel fetches order (List.replicate fetches.length none)).2,
    pollCore_result_eq sel fetches order, aggregateStatus_cases _, ?_⟩
  rw [pollCore_result_eq, lookupField_details]

/-- Claim C9: the first completed polling cycle always triggers notification
dispatch (email and push), whatever its status, because the stored last
result starts as the empty object, which never compares equal to the produced
result object. -/
theorem c9_first_cycle_notifies (sel : List Simple) (fetches : List FetchResult)
    (order : List Nat) :
    (onPollResult emptyObj (pollCore sel fetches order).result).emailSent = true ∧
    (onPollResult emptyObj (pollCore sel fetches order).result).pushSent = true ∧
    (onPollResult emptyObj (pollCore sel fetches order).result).stored =
      (pollCore sel fetches order).result := by
  rw [onPollResult_of_changed _ _ (by rw [pollCore_result_eq]; exact lodashEq_empty_cons _ _)]
  exact ⟨rfl, rfl, rfl⟩

/-- Claim C5: running the cycle twice against an unchanged upstream (the same
fetch outcomes and completion order) yields structurally equal results, so
the second run fires no notification and leaves the stored result unchanged. -/
theorem c5_no_duplicate_notification (sel : List Simple) (fetches : List FetchResult)
    (order : List Nat) :
    lodashEq (pollCore sel fetches order).result (pollCore sel fetches order).result = true ∧
    (onPollResult (onPollResult emptyObj (pollCore sel fetches order).result).stored
        (pollCore sel fetches order).result).emailSent = false ∧
    (onPollResult (onPollResult emptyObj (pollCore sel fetches order).result).stored
        (pollCore sel fetches order).result).pushSent = false ∧
    (onPollResult (onPollResult emptyObj (pollCore sel fetches order).result).stored
        (pollCore sel fetches order).result).stored =
      (onPollResult emptyObj (pollCore sel fetches order).result).stored := by
  have hself : lodashEq (pollCore sel fetches order).result
      (pollCore sel fetches order).result = true := by
    rw [pollCore_result_eq]; exact lodashEq_result_self _
  have hfirst : (onPollResult emptyObj (pollCore sel fetches order).result).stored =
      (pollCore sel fetches order).result := by
    rw [onPollResult_of_changed _ _ (by rw [pollCore_result_eq]; exact lodashEq_empty_cons _ _)]
  rw [hfirst, onPollResult_of_same _ _ hself]
  exact ⟨hself, rfl, rfl, rfl⟩

/-- Claim C2: for any two result objects with identical fields (same field
count, and every field of the first present with an equal value in the
second), the lodash equality used by the change detector returns true, so no
notification is fired and the stored result is unchanged.  Object identity
and creation time do not exist in this model: the comparison is field by
field. -/
theorem c2_structural_equality (a b : List (String × String))
    (hlen : a.length = b.length)
    (hfields : ∀ kv ∈ a, lookupField b kv.1 = some kv.2) :
    lodashEq a b = true ∧ (onPollResult a b).emailSent = false ∧
    (onPollResult a b).pushSent = false ∧ (onPollResult a b).stored = a := by
  have heq : lodashEq a b = true := by
    rw [lodashEq]
    have h1 : (a.length == b.length) = true := by simp [hlen]
    have h2 : a.all (fun kv => lookupField b kv.1 == some kv.2) = true := by
      apply List.all_eq_true.mpr
      intro kv hkv
      rw [hfields kv hkv]
      exact beq_self_eq_true _
    rw [h1, h2]
    rfl
  rw [onPollResult_of_same _ _ heq]
  exact ⟨heq, rfl, rfl, rfl⟩

/-- Witness for C2 at a concrete pair of field-identical objects. -/
theorem c2_structural_equality_witness :
    (([("status", "available")] : List (String × String)).length =
      ([("status", "available")] : List (String × String)).length ∧
     ∀ kv ∈ ([("status", "available")] : List (String × String)),
       lookupField [("status", "available")] kv.1 = some kv.2) ∧
    lodashEq [("status", "available")] [("status", "available")] = true := by
  refine ⟨⟨rfl, by decide⟩, ?_⟩
  exact (c2_structural_equality [("status", "available")] [("status", "available")]
    rfl (by decide)).1

/-- Claim C4: in a cycle where every page check fails, the delivered error
argument is non-null: the consumer is told the cycle could not check, rather
than receiving a bare "unavailable". -/
theorem c4_total_failure_propagates (sel : List Simple) (fetches : List FetchResult)
    (order : List Nat)
    (hperm : order.Perm (List.range fetches.length))
    (hne : 0 < fetches.length)
    (hfail : ∀ f ∈ fetches, isOkB (processPage sel f) = false) :
    (pollCore sel fetches order).error.isSome = true := by
  cases order with
  | nil =>
      exfalso
      have hl := hperm.length_eq
      simp only [List.length_nil, List.length_range] at hl
      omega
  | cons i rest =>
      have hi : i < fetches.length :=
        List.mem_range.mp ((hperm.mem_iff).mp (List.mem_cons_self i rest))
      have hfi : fetches[i]? = some fetches[i] := List.getElem?_eq_getElem hi
      have hf := hfail fetches[i] (List.getElem_mem hi)
      cases hpf : processPage sel fetches[i] with
      | ok b => rw [hpf] at hf; simp [isOkB] at hf
      | error e =>
          rw [pollCore_error_eq]
          simp only [runPages, hfi, hpf]
          rfl

/-- Witness for C4 at a concrete all-failed cycle. -/
theorem c4_total_failure_propagates_witness :
    (([0, 1] : List Nat).Perm (List.range 2) ∧
     0 < ([FetchResult.failed 1, FetchResult.failed 2] : List FetchResult).length ∧
     ∀ f ∈ ([FetchResult.failed 1, FetchResult.failed 2] : List FetchResult),
       isOkB (processPage selectorV1 f) = false) ∧
    (pollCore selectorV1 [FetchResult.failed 1, FetchResult.failed 2] [0, 1]).error.isSome
      = true := by
  refine ⟨⟨by decide, by decide, by decide⟩, ?_⟩
  exact c4_total_failure_propagates selectorV1 _ _ (by decide) (by decide) (by decide)


theorem processPage_ok_false_iff (sel : List Simple) (doc : HForest) :
    processPage sel (.ok doc) = .ok false ↔ forestHas sel doc = false := by
  have hiff := countForest_pos_forestHas sel doc
  by_cases h : countForest [sel] doc = 0
  · have hf : forestHas sel doc = false := by
      cases hfh : forestHas sel doc
      · rfl
      · rw [hfh] at hiff
        have := hiff.mpr rfl
        omega
    simp [processPage, h, hf]
  · have hf : forestHas sel doc = true := hiff.mp (Nat.pos_of_ne_zero h)
    simp [processPage, h, hf]

/-- Claim C1 (counterexample): a concrete cycle in which page 1's outcome is
true (its markup has a priced slot in a day-has-shows entry) but page 0's
fetch error completes first, so the callback fires early and the delivered
status is "unavailable": the status is not the OR of all per-page outcomes
with errors as false. -/
theorem c1_or_aggregation_cex :
    (pollCore selectorV1 [.failed 7, .ok docPriced] [0, 1] =
      ⟨some 7, [("status", "unavailable")]⟩) ∧
    processPage selectorV1 (.ok docPriced) = .ok true := by
  exact ⟨by decide, rfl⟩

/-- Claim C1 (amended): in every cycle where no page check fails, the
delivered status is "available" iff at least one per-page outcome is true
(logical OR over all page outcomes).  When a page check fails, `async.map`
fires the callback at the first failure and only outcomes already delivered
are aggregated, errored and still-pending slots counting as false. -/
theorem c1_or_aggregation (sel : List Simple) (fetches : List FetchResult) (order : List Nat)
    (hperm : order.Perm (List.range fetches.length))
    (hok : ∀ f ∈ fetches, isOkB (processPage sel f) = true) :
    ((pollCore sel fetches order).result = [("status", "available")] ↔
      ∃ f ∈ fetches, processPage sel f = .ok true) := by
  have hmemof : ∀ (i : Nat) (f : FetchResult), fetches[i]? = some f → f ∈ fetches := by
    intro i f hf
    rcases List.getElem?_eq_some.mp hf with ⟨h, he⟩
    exact he ▸ List.getElem_mem h
  obtain ⟨h1, h2⟩ := runPages_noFail sel fetches order (List.replicate fetches.length none)
    (List.length_replicate _ _) (fun i _ f hf => hok f (hmemof i f hf))
  rw [pollCore_result_eq]
  have hlist : ∀ x : String,
      (([("status", x)] : List (String × String)) = [("status", "available")]) ↔
        x = "available" := by
    intro x; simp
  rw [hlist, aggregateStatus_eq_available_iff, List.mem_iff_getElem?]
  constructor
  · rintro ⟨j, hj⟩
    rw [h2 j] at hj
    by_cases hcond : j ∈ order ∧ j < fetches.length
    · rw [if_pos hcond] at hj
      injection hj with hj
      injection hj with hj
      have hjlt := hcond.2
      have hfj : fetches[j]? = some fetches[j] := List.getElem?_eq_getElem hjlt
      refine ⟨fetches[j], List.getElem_mem hjlt, ?_⟩
      simp only [outValAt, hfj] at hj
      cases hpf : processPage sel fetches[j] with
      | ok b =>
          simp only [hpf] at hj
          rw [hj]
      | error e =>
          simp only [hpf] at hj
          exact absurd hj (by decide)
    · rw [if_neg hcond, List.getElem?_replicate] at hj
      by_cases hjn : j < fetches.length
      · rw [if_pos hjn] at hj
        exact absurd hj (by simp)
      · rw [if_neg hjn] at hj
        exact Option.noConfusion hj
  · rintro ⟨f, hf, hpf⟩
    obtain ⟨j, hj⟩ := List.mem_iff_getElem?.mp hf
    have hjlt : j < fetches.length := (List.getElem?_eq_some.mp hj).1
    have hjo : j ∈ order := (hperm.mem_iff).mpr (List.mem_range.mpr hjlt)
    refine ⟨j, ?_⟩
    rw [h2 j, if_pos ⟨hjo, hjlt⟩]
    have hov : outValAt sel fetches j = true := by
      simp only [outValAt, hj, hpf]
    rw [hov]

/-- Witness for C1 (amended) at a concrete no-failure cycle: page 0 has a
matching priced slot, page 1 has empty markup, completion order 1 then 0. -/
theorem c1_or_aggregation_witness :
    ((([1, 0] : List Nat).Perm (List.range 2)) ∧
     (∀ f ∈ ([FetchResult.ok docPriced, FetchResult.ok HForest.nil] : List FetchResult),
       isOkB (processPage selectorV1 f) = true)) ∧
    ((pollCore selectorV1 [FetchResult.ok docPriced, FetchResult.ok HForest.nil]
        [1, 0]).result = [("status", "available")] ↔
      ∃ f ∈ ([FetchResult.ok docPriced, FetchResult.ok HForest.nil] : List FetchResult),
        processPage selectorV1 f = .ok true) := by
  refine ⟨⟨by decide, by decide⟩, ?_⟩
  exact c1_or_aggregation selectorV1 _ _ (by decide) (by decide)

/-- Claim C3 (code evaluated at the failing input): page 0's fetch fails and
its task completes first while page 1 succeeds with a matching element.  The
callback fires at page 0's error, so the delivered status is "unavailable"
even though page 1's outcome is true — contradicting the partial-failure
contract stated in the poll function's own doc comment ("will not block the
entire polling cycle ... will instead populate the results[].error").  With
the opposite completion order the same cycle delivers "available", so the
delivered status depends on completion timing. -/
theorem c3_partial_failure_bug :
    (pollCore selectorV1 [.failed 3, .ok docPriced] [0, 1] =
      ⟨some 3, [("status", "unavailable")]⟩) ∧
    processPage selectorV1 (.ok docPriced) = .ok true ∧
    (pollCore selectorV1 [.failed 3, .ok docPriced] [1, 0] =
      ⟨some 3, [("status", "available")]⟩) := by
  exact ⟨by decide, rfl, by decide⟩

/-- Claim C6 (counterexample): markup whose day-has-shows entry's times
container holds a plain link but no priced element.  It satisfies the
claim's "either a priced time-slot or a generic link element" predicate (the
link chain is present), yet variant 1's outcome is false. -/
theorem c6_selector_cex :
    processPage selectorV1 (.ok docLinkOnly) = .ok false ∧
    forestHas selectorV2 docLinkOnly = true := by
  exact ⟨rfl, by decide⟩

/-- Claim C6 (amended): for a successfully fetched page, each observed
variant tests exactly its own selector chain: variant 1's outcome is true
iff the markup contains a day-has-shows entry containing a times container
containing a priced show-lowest-price element, and variant 2's iff such an
entry contains a link element; when the variant's own chain is absent the
outcome is false, even if the other variant's chain is present. -/
theorem c6_extraction_rule (doc : HForest) :
    (processPage selectorV1 (.ok doc) = .ok true ↔ forestHas selectorV1 doc = true) ∧
    (processPage selectorV2 (.ok doc) = .ok true ↔ forestHas selectorV2 doc = true) ∧
    (processPage selectorV1 (.ok doc) = .ok false ↔ forestHas selectorV1 doc = false) ∧
    (processPage selectorV2 (.ok doc) = .ok false ↔ forestHas selectorV2 doc = false) :=
  ⟨processPage_ok_true_iff selectorV1 doc, processPage_ok_true_iff selectorV2 doc,
   processPage_ok_false_iff selectorV1 doc, processPage_ok_false_iff selectorV2 doc⟩

/-- Claim C7 (counterexample): a cycle that delivers both a non-null error
and a result object in the same callback invocation, refuting "exactly one
PollResult or exactly one error — never both in the same call". -/
theorem c7_exactly_one_cex :
    (pollCore selectorV1 [.failed 1, .failed 2] [0, 1]).error = some 1 ∧
    (pollCore selectorV1 [.failed 1, .failed 2] [0, 1]).result =
      [("status", "unavailable")] := by
  exact ⟨by decide, by decide⟩

/-- Claim C7 (amended): the core makes exactly one callback invocation per
completed cycle; the invocation always carries a result object with a
well-formed status, and carries a non-null error exactly when some page
check failed — the error and the result arrive together in the same call
rather than exclusively. -/
theorem c7_delivery_contract (sel : List Simple) (fetches : List FetchResult)
    (order : List Nat)
    (hperm : order.Perm (List.range fetches.length)) :
    ((pollCore sel fetches order).error.isSome = true ↔
      ∃ f ∈ fetches, isOkB (processPage sel f) = false) ∧
    ∃ s, (pollCore sel fetches order).result = [("status", s)] ∧
      (s = "available" ∨ s = "unavailable") := by
  constructor
  · rw [pollCore_error_eq, runPages_isSome_iff]
    constructor
    · rintro ⟨i, hi, f, hf, hb⟩
      rcases List.getElem?_eq_some.mp hf with ⟨hlt, he⟩
      exact ⟨f, he ▸ List.getElem_mem hlt, hb⟩
    · rintro ⟨f, hf, hb⟩
      obtain ⟨j, hj⟩ := List.mem_iff_getElem?.mp hf
      have hjlt : j < fetches.length := (List.getElem?_eq_some.mp hj).1
      exact ⟨j, (hperm.mem_iff).mpr (List.mem_range.mpr hjlt), f, hj, hb⟩
  · exact ⟨_, pollCore_result_eq sel fetches order, aggregateStatus_cases _⟩

/-- Witness for C7 (amended) at a concrete mixed cycle. -/
theorem c7_delivery_contract_witness :
    (([0, 1] : List Nat).Perm (List.range 2)) ∧
    (((pollCore selectorV1 [FetchResult.failed 1, FetchResult.ok HForest.nil]
        [0, 1]).error.isSome = true ↔
      ∃ f ∈ ([FetchResult.failed 1, FetchResult.ok HForest.nil] : List FetchResult),
        isOkB (processPage selectorV1 f) = false) ∧
     ∃ s, (pollCore selectorV1 [FetchResult.failed 1, FetchResult.ok HForest.nil]
        [0, 1]).result = [("status", s)] ∧
       (s = "available" ∨ s = "unavailable")) := by
  refine ⟨by decide, ?_⟩
  exact c7_delivery_contract selectorV1 _ _ (by decide)
